import Mathlib

/-
Verification of the MP3-Splitter segmentation core (src/main.py).

The embedding: Python strings are lists of characters, Python ints are `Int`
(`Nat` where the source value is a length or count), raised-and-uncaught
exceptions are `Option.none`, and the mutable fields of the application window
that the segmentation core touches (`audio_duration_ms`, `split_points`, the
segment-panel rows) form an explicit `AppState` record threaded through the
operations.
-/

namespace MP3Splitter

/-- A Python string, modelled as its list of characters. -/
abbrev Str := List Char

/-- The decimal digit character of value `d` (for `d < 10`). -/
def digitChar (d : Nat) : Char := Char.ofNat (48 + d)

/-- Big-endian decimal digits of a natural number, with an explicit fuel argument
so the recursion is structural; the fuel is always taken at least as large as the
number, which makes the answer exact. Models the digits Python produces when
formatting a non-negative int. -/
def natToDigitsAux : Nat → Nat → List Nat
  | 0, n => [n % 10]
  | fuel + 1, n => if n < 10 then [n] else natToDigitsAux fuel (n / 10) ++ [n % 10]

/-- Big-endian decimal digits of `n`. -/
def natToDigitsBE (n : Nat) : List Nat := natToDigitsAux n n

/-- Decimal character representation of a natural number (Python `str` of an int). -/
def natRepr (n : Nat) : Str := (natToDigitsBE n).map digitChar

/-- Zero-pad on the left to width two: the Python format spec `02d` used in
`ms_to_mmss` (main.py line 542). -/
def pad2 (s : Str) : Str := List.replicate (2 - s.length) '0' ++ s

/-- `ms_to_mmss` (main.py lines 537-542): milliseconds to an `mm:ss` display string.
`seconds = ms // 1000`, `mins = seconds // 60`, `secs = seconds % 60`, each part
zero-padded to two digits. -/
def ms_to_mmss (ms : Nat) : Str :=
  pad2 (natRepr ((ms / 1000) / 60)) ++ ':' :: pad2 (natRepr ((ms / 1000) % 60))

/-- Accumulated value of a run of decimal digit characters. -/
def digitsVal (s : Str) : Nat := s.foldl (fun a c => a * 10 + (c.toNat - 48)) 0

/-- Model of Python `int(s)` on a string: an optional sign followed by one or more
ASCII digits parses to the signed value; any other string raises `ValueError`,
modelled as `none`. (Surrounding whitespace and underscore grouping, which Python
also accepts, are never produced by this program and are not modelled.) -/
def pyInt (s : Str) : Option Int :=
  match s with
  | [] => none
  | c :: rest =>
    if c = '-' then
      if rest ≠ [] ∧ rest.all Char.isDigit then some (-(digitsVal rest : Int)) else none
    else if c = '+' then
      if rest ≠ [] ∧ rest.all Char.isDigit then some ((digitsVal rest : Int)) else none
    else
      if (c :: rest).all Char.isDigit then some ((digitsVal (c :: rest) : Int)) else none

/-- Python `s.split(sep)` with a one-character separator, for the separator `:`. -/
def splitOnColon : Str → List Str
  | [] => [[]]
  | c :: t =>
    if c = ':' then [] :: splitOnColon t
    else
      match splitOnColon t with
      | [] => [[c]]
      | p :: ps => (c :: p) :: ps

/-- Number of colon characters in a string. -/
def colonCount : Str → Nat
  | [] => 0
  | c :: t => (if c = ':' then 1 else 0) + colonCount t

/-- `mmss_to_ms` (main.py lines 584-593): parse an `mm:ss` or bare-seconds string to
milliseconds. With exactly one colon both parts go through `int`; with no colon the
single part is seconds; with any other number of colons the code silently uses
`mins, secs = '0', '0'` and returns `0`. A `ValueError` raised by `int` propagates
uncaught out of this helper, modelled as `none`. -/
def mmss_to_ms (s : Str) : Option Int :=
  match splitOnColon s with
  | [m, s2] => do
      let mi ← pyInt m
      let se ← pyInt s2
      some ((mi * 60 + se) * 1000)
  | [x] => do
      let se ← pyInt x
      some ((0 * 60 + se) * 1000)
  | _ => some ((0 * 60 + 0) * 1000)

/-- The time parsing inside `add_manual_split_from_entry` (main.py lines 618-632):
like `mmss_to_ms`, except that when a colon is present and the split yields a number
of parts other than one or two the code raises `ValueError` itself, and the
surrounding handler turns any `ValueError` into an invalid-format notice (`none`
here). A bare value goes through `int(time_str) * 1000` unchecked for sign. -/
def parse_entry_time (s : Str) : Option Int :=
  if ':' ∈ s then
    match splitOnColon s with
    | [m, s2] => do
        let mi ← pyInt m
        let se ← pyInt s2
        some ((mi * 60 + se) * 1000)
    | [x] => do
        let se ← pyInt x
        some ((0 * 60 + se) * 1000)
    | _ => none
  else
    (pyInt s).map (fun k => k * 1000)

/-- Python `sorted(set(l))`: the increasing enumeration of the distinct elements. -/
def pySortedSet (l : List Int) : List Int := List.insertionSort (· ≤ ·) l.dedup

/-- The boundary list computed by `update_manual_split_segments` (main.py lines
652-655): sort and deduplicate `[0] + split_points + ([duration] if duration else [])`
(Python truthiness: the duration is added when nonzero), then drop values outside
`[0, duration]`. -/
def derivePoints (duration : Int) (split_points : List Int) : List Int :=
  (pySortedSet (0 :: (split_points ++ (if duration ≠ 0 then [duration] else [])))).filter
    (fun p => decide (0 ≤ p) && decide (p ≤ duration))

/-- The `(i + 1, start, end)` rows built by the loop over consecutive boundary pairs in
`update_manual_split_segments` (main.py lines 657-660). -/
def segRows (idx : Nat) : List Int → List (Nat × Int × Int)
  | a :: b :: t => (idx, a, b) :: segRows (idx + 1) (b :: t)
  | _ => []

/-- `update_manual_split_segments` (main.py lines 647-660), at the level of the
numeric `(track, start_ms, end_ms)` triples its loop produces. -/
def update_manual_split_segments (duration : Int) (split_points : List Int) :
    List (Nat × Int × Int) :=
  segRows 1 (derivePoints duration split_points)

/-- The display rows `update_manual_split_segments` inserts into the segment panel:
each bound formatted by `ms_to_mmss` (bounds are non-negative after the range filter,
so `Int.toNat` loses nothing). -/
def treeRows (duration : Int) (split_points : List Int) : List (Nat × Str × Str) :=
  (update_manual_split_segments duration split_points).map
    (fun r => (r.1, ms_to_mmss r.2.1.toNat, ms_to_mmss r.2.2.toNat))

/-- The timestamp accumulation loop of `run_auto_split_task` (main.py lines 522-528)
and of `run_split_task` (lines 451-458): track numbers start at 1, `start_ms` is the
running position, `end_ms` adds the chunk's length, and the position advances to
`end_ms`. -/
def chunkTimestampsGo (idx pos : Nat) : List Nat → List (Nat × Nat × Nat)
  | [] => []
  | len :: rest => (idx, pos, pos + len) :: chunkTimestampsGo (idx + 1) (pos + len) rest

/-- The `(track, start_ms, end_ms)` timestamps computed from the engine's chunk
lengths. -/
def chunkTimestamps (lens : List Nat) : List (Nat × Nat × Nat) := chunkTimestampsGo 1 0 lens

/-- The display rows inserted by `update_tree` inside `run_auto_split_task`
(main.py lines 529-531). -/
def chunkRows (lens : List Nat) : List (Nat × Str × Str) :=
  (chunkTimestamps lens).map (fun r => (r.1, ms_to_mmss r.2.1, ms_to_mmss r.2.2))

/-- Final status-bar report of an operation. Warning and error reports use distinct
constructors, mirroring the distinct `'warning'` and `'error'` status types in the
source: a warning is not an error. -/
inductive Status where
  | warningNoSilence
  | successAutoSplit (tracks : Nat)
  | errorNoAudio
  | errorInvalidTimeFormat
  | successAddedSplit (ms : Int)
deriving DecidableEq

/-- The window fields the segmentation core manipulates: the loaded duration, the
stored split points, and the segment-panel rows. -/
structure AppState where
  audio_duration_ms : Int
  split_points : List Int
  tree : List (Nat × Str × Str)
deriving DecidableEq

/-- `run_auto_split_task` (main.py lines 506-535), taking the lengths of the chunks
returned by the external `split_on_silence` library call as input. An empty chunk
list reports the no-silence warning and changes nothing; otherwise the timestamp rows
are appended to the panel (the panel was cleared earlier, by
`auto_split_on_param_change`, before this task started). -/
def run_auto_split_task (st : AppState) (chunkLens : List Nat) : AppState × Status :=
  if chunkLens = [] then (st, Status.warningNoSilence)
  else
    (AppState.mk st.audio_duration_ms st.split_points (st.tree ++ chunkRows chunkLens),
     Status.successAutoSplit chunkLens.length)

/-- One complete auto-split pass: `auto_split_on_param_change` (main.py lines 496-504)
clears the panel rows synchronously, then the spawned `run_auto_split_task` delivers
its result. -/
def auto_split_pass (st : AppState) (chunkLens : List Nat) : AppState × Status :=
  run_auto_split_task (AppState.mk st.audio_duration_ms st.split_points []) chunkLens

/-- `add_manual_split_from_entry` (main.py lines 612-645): reject when no audio is
loaded (duration zero is falsy) or the entry text fails to parse; otherwise clamp the
parsed offset into `[0, duration]`, append it to the stored points unless already
present, and rebuild the panel. -/
def add_manual_split_from_entry (st : AppState) (time_str : Str) : AppState × Status :=
  if st.audio_duration_ms = 0 then (st, Status.errorNoAudio)
  else
    match parse_entry_time time_str with
    | none => (st, Status.errorInvalidTimeFormat)
    | some ms0 =>
        let ms := max 0 (min ms0 st.audio_duration_ms)
        let sps := if ms ∈ st.split_points then st.split_points
                   else st.split_points ++ [ms]
        (AppState.mk st.audio_duration_ms sps (treeRows st.audio_duration_ms sps),
         Status.successAddedSplit ms)

/-- `on_waveform_click` (main.py lines 263-281): with audio loaded, the clicked offset
is clamped into range and appended unconditionally (duplicates stay in the stored
list), then the panel is rebuilt by `update_manual_split_segments`. -/
def on_waveform_click (st : AppState) (ms0 : Int) : AppState :=
  if st.audio_duration_ms = 0 then st
  else
    let ms := max 0 (min ms0 st.audio_duration_ms)
    let sps := st.split_points ++ [ms]
    AppState.mk st.audio_duration_ms sps (treeRows st.audio_duration_ms sps)

/-- Outcome of `download_segments_zip`: the early error message, a cancelled save
dialog, an uncaught parse exception, or success with the number of files written. -/
inductive ExportResult where
  | errorNoSegments
  | cancelled
  | exportError
  | success (count : Nat)
deriving DecidableEq

/-- The per-row slice bounds parsed back from the panel's display strings in the
export loop of `download_segments_zip` (main.py lines 566-572); `none` models an
uncaught `ValueError` from `int`. -/
def export_files : List (Nat × Str × Str) → Option (List (Nat × Int × Int))
  | [] => some []
  | r :: rest => do
      let sms ← mmss_to_ms r.2.1
      let ems ← mmss_to_ms r.2.2
      let others ← export_files rest
      some ((r.1, sms, ems) :: others)

/-- `download_segments_zip` (main.py lines 544-582). Inputs: the panel rows, the
loaded audio path (`none` when falsy) and the user's save-dialog choice. The second
component lists the `(track, start_ms, end_ms)` slices written into the archive;
it is empty whenever no archive is produced. The empty-segments check happens first,
before the save dialog is even shown. -/
def download_segments_zip (rows : List (Nat × Str × Str)) (current_audio_path : Option Str)
    (zipChoice : Option Str) : ExportResult × List (Nat × Int × Int) :=
  if rows = [] ∨ current_audio_path = none then (ExportResult.errorNoSegments, [])
  else
    match zipChoice with
    | none => (ExportResult.cancelled, [])
    | some _ =>
      match export_files rows with
      | none => (ExportResult.exportError, [])
      | some files => (ExportResult.success files.length, files)

/-- Interleaving events of concurrent auto-split runs. `start lens` models
`auto_split_on_param_change` (main.py lines 496-504): it clears the panel on the main
thread and spawns a worker whose chunk lengths will be `lens`. `deliver k` models the
`root.after(0, update_tree)` callback of the `k`-th started run (lines 529-533)
finally executing on the main thread; the source attaches no run identifier to it. -/
inductive AutoEvent where
  | start (chunkLens : List Nat)
  | deliver (run : Nat)

/-- Panel rows together with the list of started runs, in start order. -/
abbrev TraceState := List (Nat × Str × Str) × List (List Nat)

/-- Effect of one event: a start clears the panel and registers the run; a delivery
appends the run's rows exactly as `update_tree` does, with no staleness check
(an empty-chunk run returned early and delivers nothing). -/
def stepEvent (s : TraceState) : AutoEvent → TraceState
  | AutoEvent.start lens => ([], s.2 ++ [lens])
  | AutoEvent.deliver k =>
    match s.2.get? k with
    | none => s
    | some lens => if lens = [] then s else (s.1 ++ chunkRows lens, s.2)

/-- Run a sequence of interleaving events. -/
def runTrace (s : TraceState) (t : List AutoEvent) : TraceState := t.foldl stepEvent s

/-- Trace well-formedness: a delivery refers to a run that has already started and
happens at most once per run. Any such ordering is schedulable: the worker threads
and the event-queue callbacks carry no ordering constraint beyond these. -/
def validFrom : Nat → List Nat → List AutoEvent → Bool
  | _, _, [] => true
  | n, seen, AutoEvent.start _ :: rest => validFrom (n + 1) seen rest
  | n, seen, AutoEvent.deliver k :: rest =>
    decide (k < n) && !(seen.contains k) && validFrom n (k :: seen) rest

/-- A trace the threading model of the source permits. -/
abbrev ValidTrace (t : List AutoEvent) : Prop := validFrom 0 [] t = true

/-! ### Decimal formatting and parsing lemmas -/

/-- Big-endian value of a digit list (the reading order of decimal notation). -/
def valBE (ds : List Nat) : Nat := ds.foldl (fun a d => a * 10 + d) 0

theorem valBE_append_singleton (l : List Nat) (d : Nat) :
    valBE (l ++ [d]) = valBE l * 10 + d := by
  simp [valBE, List.foldl_append]

theorem natToDigitsAux_ne_nil (fuel n : Nat) : natToDigitsAux fuel n ≠ [] := by
  cases fuel with
  | zero => simp [natToDigitsAux]
  | succ f =>
    rw [natToDigitsAux]
    split
    · simp
    · simp

theorem natToDigitsAux_lt_ten :
    ∀ (fuel n d : Nat), d ∈ natToDigitsAux fuel n → d < 10 := by
  intro fuel
  induction fuel with
  | zero =>
    intro n d hd
    simp only [natToDigitsAux, List.mem_singleton] at hd
    omega
  | succ f ih =>
    intro n d hd
    rw [natToDigitsAux] at hd
    by_cases h : n < 10
    · simp only [if_pos h, List.mem_singleton] at hd
      omega
    · simp only [if_neg h, List.mem_append, List.mem_singleton] at hd
      rcases hd with hd | hd
      · exact ih (n / 10) d hd
      · omega

theorem valBE_natToDigitsAux :
    ∀ (fuel n : Nat), n ≤ fuel → valBE (natToDigitsAux fuel n) = n := by
  intro fuel
  induction fuel with
  | zero =>
    intro n hn
    have : n = 0 := by omega
    subst this
    simp [natToDigitsAux, valBE]
  | succ f ih =>
    intro n hn
    rw [natToDigitsAux]
    by_cases h : n < 10
    · simp [if_pos h, valBE]
    · rw [if_neg h, valBE_append_singleton]
      have hdiv : n / 10 ≤ f := by
        have := Nat.div_lt_self (by omega : 0 < n) (by omega : 1 < 10)
        omega
      rw [ih (n / 10) hdiv]
      omega

theorem valBE_natToDigitsBE (n : Nat) : valBE (natToDigitsBE n) = n :=
  valBE_natToDigitsAux n n (Nat.le_refl n)

theorem digitChar_isDigit (d : Nat) (h : d < 10) : (digitChar d).isDigit = true := by
  interval_cases d <;> decide

theorem digitChar_toNat (d : Nat) (h : d < 10) : (digitChar d).toNat = 48 + d := by
  interval_cases d <;> decide

theorem digitChar_ne_colon (d : Nat) (h : d < 10) : digitChar d ≠ ':' := by
  interval_cases d <;> decide

theorem foldl_digits_map (ds : List Nat) :
    ∀ (a : Nat), (∀ d ∈ ds, d < 10) →
      (ds.map digitChar).foldl (fun a c => a * 10 + (c.toNat - 48)) a
        = ds.foldl (fun a d => a * 10 + d) a := by
  induction ds with
  | nil => intro a _; rfl
  | cons d t ih =>
    intro a hlt
    have hd : d < 10 := hlt d (List.mem_cons_self d t)
    simp only [List.map_cons, List.foldl_cons]
    rw [digitChar_toNat d hd]
    have : 48 + d - 48 = d := by omega
    rw [this]
    exact ih (a * 10 + d) (fun x hx => hlt x (List.mem_cons_of_mem d hx))

theorem digitsVal_natRepr (n : Nat) : digitsVal (natRepr n) = n := by
  unfold digitsVal natRepr
  rw [foldl_digits_map (natToDigitsBE n) 0 (natToDigitsAux_lt_ten n n)]
  exact valBE_natToDigitsBE n

theorem natRepr_ne_nil (n : Nat) : natRepr n ≠ [] := by
  unfold natRepr natToDigitsBE
  intro h
  exact natToDigitsAux_ne_nil n n (List.map_eq_nil_iff.mp h)

theorem natRepr_all_digits (n : Nat) : (natRepr n).all Char.isDigit = true := by
  rw [List.all_eq_true]
  intro c hc
  rcases List.mem_map.mp hc with ⟨d, hd, rfl⟩
  exact digitChar_isDigit d (natToDigitsAux_lt_ten n n d hd)

theorem foldl_replicate_zero_char (k : Nat) :
    (List.replicate k '0').foldl (fun a c => a * 10 + (c.toNat - 48)) 0 = 0 := by
  induction k with
  | zero => rfl
  | succ m ih => simpa [List.replicate_succ] using ih

theorem digitsVal_pad2 (s : Str) : digitsVal (pad2 s) = digitsVal s := by
  unfold pad2 digitsVal
  rw [List.foldl_append, foldl_replicate_zero_char]

theorem pad2_ne_nil (s : Str) (h : s ≠ []) : pad2 s ≠ [] := by
  unfold pad2
  simp [h]

theorem pad2_all_digits (s : Str) (h : s.all Char.isDigit = true) :
    (pad2 s).all Char.isDigit = true := by
  unfold pad2
  rw [List.all_eq_true] at h ⊢
  intro c hc
  rcases List.mem_append.mp hc with hc | hc
  · rw [List.eq_of_mem_replicate hc]
    decide
  · exact h c hc

theorem not_colon_of_all_digits (s : Str) (h : s.all Char.isDigit = true) : ':' ∉ s := by
  rw [List.all_eq_true] at h
  intro hc
  have := h ':' hc
  simp [Char.isDigit] at this

theorem pyInt_all_digits (s : Str) (hne : s ≠ []) (hd : s.all Char.isDigit = true) :
    pyInt s = some ((digitsVal s : Nat) : Int) := by
  match s with
  | [] => exact absurd rfl hne
  | c :: rest =>
    have hc : c.isDigit = true := by
      rw [List.all_eq_true] at hd
      exact hd c (List.mem_cons_self c rest)
    have hcm : c ≠ '-' := by
      intro h
      subst h
      simp [Char.isDigit] at hc
    have hcp : c ≠ '+' := by
      intro h
      subst h
      simp [Char.isDigit] at hc
    rw [pyInt, if_neg hcm, if_neg hcp, if_pos hd]

theorem pyInt_pad2_natRepr (n : Nat) :
    pyInt (pad2 (natRepr n)) = some ((n : Nat) : Int) := by
  rw [pyInt_all_digits _ (pad2_ne_nil _ (natRepr_ne_nil n)) (pad2_all_digits _ (natRepr_all_digits n))]
  rw [digitsVal_pad2, digitsVal_natRepr]

/-! ### Splitting on the colon -/

theorem splitOnColon_ne_nil (s : Str) : splitOnColon s ≠ [] := by
  cases s with
  | nil => simp [splitOnColon]
  | cons c t =>
    rw [splitOnColon]
    split
    · simp
    · split
      · simp
      · simp

theorem splitOnColon_no_colon (s : Str) (h : ':' ∉ s) : splitOnColon s = [s] := by
  induction s with
  | nil => rfl
  | cons c t ih =>
    have hc : c ≠ ':' := fun hx => h (hx ▸ List.mem_cons_self c t)
    have ht : ':' ∉ t := fun hx => h (List.mem_cons_of_mem c hx)
    rw [splitOnColon, if_neg hc, ih ht]

theorem splitOnColon_append (a b : Str) (h : ':' ∉ a) :
    splitOnColon (a ++ ':' :: b) = a :: splitOnColon b := by
  induction a with
  | nil =>
    simp only [List.nil_append]
    rw [splitOnColon, if_pos rfl]
  | cons c t ih =>
    have hc : c ≠ ':' := fun hx => h (hx ▸ List.mem_cons_self c t)
    have ht : ':' ∉ t := fun hx => h (List.mem_cons_of_mem c hx)
    simp only [List.cons_append]
    rw [splitOnColon, if_neg hc, ih ht]

theorem length_splitOnColon (s : Str) : (splitOnColon s).length = colonCount s + 1 := by
  induction s with
  | nil => rfl
  | cons c t ih =>
    rw [splitOnColon, colonCount]
    by_cases hc : c = ':'
    · rw [if_pos hc, if_pos hc]
      simp only [List.length_cons, ih]
      omega
    · rw [if_neg hc, if_neg hc]
      rcases h : splitOnColon t with _ | ⟨p, ps⟩
      · exact absurd h (splitOnColon_ne_nil t)
      · rw [h] at ih
        simpa using ih

theorem mem_of_colonCount_pos (s : Str) (h : 0 < colonCount s) : ':' ∈ s := by
  induction s with
  | nil => simp [colonCount] at h
  | cons c t ih =>
    rw [colonCount] at h
    by_cases hc : c = ':'
    · exact hc ▸ List.mem_cons_self c t
    · rw [if_neg hc] at h
      exact List.mem_cons_of_mem c (ih (by omega))

/-! ### The display round trip -/

theorem mmss_roundtrip (ms : Nat) :
    mmss_to_ms (ms_to_mmss ms) = some (((ms / 1000) * 1000 : Nat) : Int) := by
  have hA := pad2_all_digits _ (natRepr_all_digits ((ms / 1000) / 60))
  have hB := pad2_all_digits _ (natRepr_all_digits ((ms / 1000) % 60))
  have hsplit : splitOnColon (ms_to_mmss ms)
      = [pad2 (natRepr ((ms / 1000) / 60)), pad2 (natRepr ((ms / 1000) % 60))] := by
    rw [ms_to_mmss, splitOnColon_append _ _ (not_colon_of_all_digits _ hA),
      splitOnColon_no_colon _ (not_colon_of_all_digits _ hB)]
  rw [mmss_to_ms, hsplit]
  simp only [pyInt_pad2_natRepr, Option.bind_eq_bind, Option.some_bind]
  rw [Option.some_inj]
  have h60 : ms / 1000 / 60 * 60 + ms / 1000 % 60 = ms / 1000 := by omega
  push_cast
  omega

/-! ### Sorted deduplicated boundary lists -/

theorem mem_pySortedSet {x : Int} {l : List Int} : x ∈ pySortedSet l ↔ x ∈ l := by
  unfold pySortedSet
  rw [(List.perm_insertionSort _ l.dedup).mem_iff, List.mem_dedup]

theorem sorted_pySortedSet (l : List Int) : (pySortedSet l).Sorted (· ≤ ·) :=
  List.sorted_insertionSort _ _

theorem nodup_pySortedSet (l : List Int) : (pySortedSet l).Nodup :=
  ((List.perm_insertionSort _ l.dedup).nodup_iff).mpr (List.nodup_dedup l)

theorem pySortedSet_eq_of_mem_iff {l1 l2 : List Int} (h : ∀ x, x ∈ l1 ↔ x ∈ l2) :
    pySortedSet l1 = pySortedSet l2 := by
  refine List.eq_of_perm_of_sorted ?_ (sorted_pySortedSet l1) (sorted_pySortedSet l2)
  rw [List.perm_ext_iff_of_nodup (nodup_pySortedSet l1) (nodup_pySortedSet l2)]
  intro a
  rw [mem_pySortedSet, mem_pySortedSet]
  exact h a

theorem sorted_derivePoints (d : Int) (sps : List Int) :
    (derivePoints d sps).Sorted (· ≤ ·) :=
  List.Pairwise.filter _ (sorted_pySortedSet _)

theorem nodup_derivePoints (d : Int) (sps : List Int) : (derivePoints d sps).Nodup :=
  List.Nodup.filter _ (nodup_pySortedSet _)

theorem mem_derivePoints {d : Int} {sps : List Int} {x : Int} :
    x ∈ derivePoints d sps ↔
      (x = 0 ∨ x ∈ sps ∨ (d ≠ 0 ∧ x = d)) ∧ 0 ≤ x ∧ x ≤ d := by
  unfold derivePoints
  rw [List.mem_filter, mem_pySortedSet]
  simp only [List.mem_cons, List.mem_append, Bool.and_eq_true, decide_eq_true_eq]
  constructor
  · rintro ⟨h1, h2, h3⟩
    refine ⟨?_, h2, h3⟩
    rcases h1 with h | h | h
    · exact Or.inl h
    · exact Or.inr (Or.inl h)
    · by_cases hd : d ≠ 0
      · rw [if_pos hd] at h
        exact Or.inr (Or.inr ⟨hd, List.mem_singleton.mp h⟩)
      · rw [if_neg hd] at h
        cases h
  · rintro ⟨h1, h2, h3⟩
    refine ⟨?_, h2, h3⟩
    rcases h1 with h | h | ⟨hd, h⟩
    · exact Or.inl h
    · exact Or.inr (Or.inl h)
    · subst h
      rw [if_pos hd]
      exact Or.inr (Or.inr (List.mem_singleton.mpr rfl))

theorem head?_eq_of_sorted_min {l : List Int} {a : Int} (hs : l.Sorted (· ≤ ·))
    (ha : a ∈ l) (hmin : ∀ x ∈ l, a ≤ x) : l.head? = some a := by
  cases l with
  | nil => cases ha
  | cons b t =>
    have hab : a ≤ b := hmin b (List.mem_cons_self b t)
    rcases List.mem_cons.mp ha with h | h
    · rw [h]
      rfl
    · have hba : b ≤ a := List.rel_of_sorted_cons hs a h
      rw [le_antisymm hab hba]
      rfl

theorem getLast?_eq_of_sorted_max :
    ∀ (l : List Int) (b : Int), l.Sorted (· ≤ ·) → b ∈ l → (∀ x ∈ l, x ≤ b) →
      l.getLast? = some b := by
  intro l
  induction l with
  | nil => intro b _ hb _; cases hb
  | cons a t ih =>
    intro b hs hb hmax
    cases t with
    | nil =>
      rcases List.mem_singleton.mp hb with rfl
      rfl
    | cons c t2 =>
      rw [List.getLast?_cons_cons]
      have hst : (c :: t2).Sorted (· ≤ ·) := (List.sorted_cons.mp hs).2
      have hmax2 : ∀ x ∈ c :: t2, x ≤ b := fun x hx => hmax x (List.mem_cons_of_mem a hx)
      refine ih b hst ?_ hmax2
      rcases List.mem_cons.mp hb with h | h
      · have hac : a ≤ c := List.rel_of_sorted_cons hs c (List.mem_cons_self c t2)
        have hcb : c ≤ b := hmax c (List.mem_cons_of_mem a (List.mem_cons_self c t2))
        have : c = b := le_antisymm hcb (h ▸ hac)
        exact this ▸ List.mem_cons_self c t2
      · exact h

theorem derivePoints_head? (d : Int) (sps : List Int) (hd : 0 < d) :
    (derivePoints d sps).head? = some 0 := by
  refine head?_eq_of_sorted_min (sorted_derivePoints d sps) ?_ ?_
  · exact mem_derivePoints.mpr ⟨Or.inl rfl, le_refl 0, le_of_lt hd⟩
  · intro x hx
    exact (mem_derivePoints.mp hx).2.1

theorem derivePoints_getLast? (d : Int) (sps : List Int) (hd : 0 < d) :
    (derivePoints d sps).getLast? = some d := by
  refine getLast?_eq_of_sorted_max _ d (sorted_derivePoints d sps) ?_ ?_
  · exact mem_derivePoints.mpr ⟨Or.inr (Or.inr ⟨by omega, rfl⟩), le_of_lt hd, le_refl d⟩
  · intro x hx
    exact (mem_derivePoints.mp hx).2.2

theorem two_le_length_of_mem_ne {l : List Int} {a b : Int} (ha : a ∈ l) (hb : b ∈ l)
    (hne : a ≠ b) : 2 ≤ l.length := by
  cases l with
  | nil => cases ha
  | cons x t =>
    cases t with
    | nil =>
      rcases List.mem_singleton.mp ha with rfl
      rcases List.mem_singleton.mp hb with rfl
      exact absurd rfl hne
    | cons y t2 => simp [List.length_cons]

theorem two_le_length_derivePoints (d : Int) (sps : List Int) (hd : 0 < d) :
    2 ≤ (derivePoints d sps).length := by
  have h0 : (0 : Int) ∈ derivePoints d sps :=
    mem_derivePoints.mpr ⟨Or.inl rfl, le_refl 0, le_of_lt hd⟩
  have hdm : d ∈ derivePoints d sps :=
    mem_derivePoints.mpr ⟨Or.inr (Or.inr ⟨by omega, rfl⟩), le_of_lt hd, le_refl d⟩
  exact two_le_length_of_mem_ne h0 hdm (by omega)

/-! ### Consecutive-pair rows -/

theorem segRows_length (k : Nat) :
    ∀ (l : List Int), (segRows k l).length = l.length - 1 := by
  intro l
  induction l generalizing k with
  | nil => rfl
  | cons a t ih =>
    cases t with
    | nil => rfl
    | cons b t2 =>
      rw [segRows]
      simp only [List.length_cons, ih (k + 1)]
      omega

theorem segRows_get? (k : Nat) :
    ∀ (l : List Int) (i : Nat),
      (segRows k l).get? i
        = (l.get? i).bind (fun a => (l.get? (i + 1)).map (fun b => (k + i, a, b))) := by
  intro l
  induction l generalizing k with
  | nil => intro i; simp [segRows]
  | cons a t ih =>
    cases t with
    | nil =>
      intro i
      cases i with
      | zero => simp [segRows]
      | succ j => simp [segRows]
    | cons b t2 =>
      intro i
      cases i with
      | zero => simp [segRows]
      | succ j =>
        rw [segRows]
        simp only [List.get?_cons_succ]
        rw [ih (k + 1) j]
        have : k + 1 + j = k + (j + 1) := by omega
        rw [this]
        simp [List.get?_cons_succ]

theorem update_get? (d : Int) (sps : List Int) (i : Nat) :
    (update_manual_split_segments d sps).get? i
      = ((derivePoints d sps).get? i).bind
          (fun a => ((derivePoints d sps).get? (i + 1)).map (fun b => (1 + i, a, b))) :=
  segRows_get? 1 (derivePoints d sps) i

/-! ### Chunk timestamp accumulation -/

theorem chunkTimestampsGo_get? :
    ∀ (lens : List Nat) (idx pos i : Nat),
      (chunkTimestampsGo idx pos lens).get? i
        = (lens.get? i).map
            (fun len => (idx + i, pos + (lens.take i).sum, pos + (lens.take i).sum + len)) := by
  intro lens
  induction lens with
  | nil => intro idx pos i; simp [chunkTimestampsGo]
  | cons len rest ih =>
    intro idx pos i
    cases i with
    | zero => simp [chunkTimestampsGo]
    | succ j =>
      rw [chunkTimestampsGo]
      simp only [List.get?_cons_succ, List.take_succ_cons, List.sum_cons]
      rw [ih (idx + 1) (pos + len) j]
      cases h : rest.get? j with
      | none => rfl
      | some x =>
        simp only [Option.map_some']
        have h1 : idx + 1 + j = idx + (j + 1) := by omega
        have h2 : pos + len + (rest.take j).sum = pos + (len + (rest.take j).sum) := by omega
        rw [h1, h2]

theorem chunkTimestampsGo_length :
    ∀ (lens : List Nat) (idx pos : Nat), (chunkTimestampsGo idx pos lens).length = lens.length := by
  intro lens
  induction lens with
  | nil => intro idx pos; rfl
  | cons len rest ih =>
    intro idx pos
    rw [chunkTimestampsGo, List.length_cons, List.length_cons, ih]

theorem chunkTimestamps_length (lens : List Nat) :
    (chunkTimestamps lens).length = lens.length :=
  chunkTimestampsGo_length lens 1 0

theorem chunkTimestamps_get? (lens : List Nat) (i : Nat) (hi : i < lens.length) :
    (chunkTimestamps lens).get? i
      = some (i + 1, (lens.take i).sum, (lens.take i).sum + lens.get ⟨i, hi⟩) := by
  have h := chunkTimestampsGo_get? lens 1 0 i
  rw [List.get?_eq_get hi] at h
  simp only [Option.map_some'] at h
  unfold chunkTimestamps
  rw [h]
  norm_num [Nat.add_comm]

/-! ## The claims -/

/-- C2: converting a non-negative millisecond offset to its `mm:ss` display string and
parsing the string back yields the offset rounded down to the whole second:
`mmss_to_ms (ms_to_mmss ms) = (ms // 1000) * 1000`. -/
theorem time_codec_roundtrip (ms : Nat) :
    mmss_to_ms (ms_to_mmss ms) = some (((ms / 1000) * 1000 : Nat) : Int) :=
  mmss_roundtrip ms

theorem export_files_map_floor (rows : List (Nat × Int × Int)) :
    export_files (rows.map (fun r => (r.1, ms_to_mmss r.2.1.toNat, ms_to_mmss r.2.2.toNat)))
      = some (rows.map (fun r =>
          (r.1, (((r.2.1.toNat / 1000) * 1000 : Nat) : Int),
            (((r.2.2.toNat / 1000) * 1000 : Nat) : Int)))) := by
  induction rows with
  | nil => rfl
  | cons r rest ih =>
    simp only [List.map_cons, export_files, mmss_roundtrip, ih, Option.bind_eq_bind,
      Option.some_bind]

/-- C9: `download_segments_zip` re-parses the panel's `mm:ss` strings, so every slice
boundary it exports is the stored boundary rounded down to a whole second —
sub-second precision of stored split points is silently discarded. -/
theorem export_boundaries_floor_to_second (d : Int) (sps : List Int) :
    export_files (treeRows d sps)
      = some ((update_manual_split_segments d sps).map (fun r =>
          (r.1, (((r.2.1.toNat / 1000) * 1000 : Nat) : Int),
            (((r.2.2.toNat / 1000) * 1000 : Nat) : Int)))) :=
  export_files_map_floor (update_manual_split_segments d sps)

/-- C8: appending the same split point a second time (as a waveform click does,
duplicates and all) leaves the derived segment rows unchanged: the derivation sorts
and deduplicates the stored points. -/
theorem add_split_point_idempotent_segments (d : Int) (sps : List Int) (p : Int) :
    update_manual_split_segments d (sps ++ [p] ++ [p])
      = update_manual_split_segments d (sps ++ [p]) := by
  unfold update_manual_split_segments derivePoints
  have h : pySortedSet (0 :: ((sps ++ [p] ++ [p]) ++ (if d ≠ 0 then [d] else [])))
      = pySortedSet (0 :: ((sps ++ [p]) ++ (if d ≠ 0 then [d] else []))) := by
    apply pySortedSet_eq_of_mem_iff
    intro x
    simp only [List.mem_cons, List.mem_append, List.mem_singleton]
    tauto
  rw [h]

/-- C6: an auto-split run that produces zero chunks reports the distinct no-silence
notice (`Status.warningNoSilence`, a warning constructor, not one of the error
constructors) and leaves the state it sees — in particular the stored split points —
completely unchanged; across the whole pass the stored split points are likewise
untouched. -/
theorem auto_split_empty_chunks_warning (st : AppState) :
    run_auto_split_task st [] = (st, Status.warningNoSilence) ∧
      (auto_split_pass st []).1.split_points = st.split_points ∧
      (auto_split_pass st []).2 = Status.warningNoSilence :=
  ⟨rfl, rfl, rfl⟩

/-- C7: exporting with an empty segment list reports the empty-input error and writes
no file, whatever the loaded path and whatever destination the save dialog would have
produced — the check precedes the dialog. -/
theorem download_segments_zip_empty_error (rows : List (Nat × Str × Str))
    (path : Option Str) (zipChoice : Option Str) (h : rows = []) :
    download_segments_zip rows path zipChoice = (ExportResult.errorNoSegments, []) := by
  subst h
  rfl

theorem download_segments_zip_empty_error_witness :
    ([] : List (Nat × Str × Str)) = [] ∧
      download_segments_zip [] (some ['a']) (some ['z'])
        = (ExportResult.errorNoSegments, []) :=
  ⟨rfl, download_segments_zip_empty_error [] (some ['a']) (some ['z']) rfl⟩

/-- C3 counterexample: the claim says any colon count other than one fails and a
negative bare value fails, but `mmss_to_ms` maps the two-colon string `1:2:3` to
`some 0` without error, and `add_manual_split_from_entry` accepts the bare negative
entry `-5`, clamps it to `0` and reports success. -/
theorem from_display_strictness_cex :
    mmss_to_ms ['1', ':', '2', ':', '3'] = some 0 ∧
      (add_manual_split_from_entry (AppState.mk 10000 [] []) ['-', '5']).2
        = Status.successAddedSplit 0 :=
  ⟨by decide, by decide⟩

/-- C3 amended: with two or more colons `mmss_to_ms` returns `0` (it silently uses
`0:0`) while the entry-path parser rejects the string; a parse failure on the entry
path is reported as the invalid-format notice with the state unchanged; but a bare
negative integer parses successfully and is accepted — clamped to `0` — rather than
rejected. -/
theorem from_display_strictness_amended :
    (∀ s : Str, 2 ≤ colonCount s → mmss_to_ms s = some 0) ∧
    (∀ s : Str, 2 ≤ colonCount s → parse_entry_time s = none) ∧
    (∀ (st : AppState) (s : Str), st.audio_duration_ms ≠ 0 → parse_entry_time s = none →
      add_manual_split_from_entry st s = (st, Status.errorInvalidTimeFormat)) ∧
    (∀ (st : AppState) (s : Str) (k : Int), 0 < st.audio_duration_ms →
      parse_entry_time s = some k → k < 0 →
      (add_manual_split_from_entry st s).2 = Status.successAddedSplit 0 ∧
        (0 : Int) ∈ (add_manual_split_from_entry st s).1.split_points) := by
  have hsplit3 : ∀ s : Str, 2 ≤ colonCount s →
      ∃ p1 p2 p3 ps, splitOnColon s = p1 :: p2 :: p3 :: ps := by
    intro s hc
    have hlen : 3 ≤ (splitOnColon s).length := by
      rw [length_splitOnColon]
      omega
    rcases hsp : splitOnColon s with _ | ⟨p1, _ | ⟨p2, _ | ⟨p3, ps⟩⟩⟩ <;>
      rw [hsp] at hlen <;> simp at hlen
    exact ⟨p1, p2, p3, ps, rfl⟩
  refine ⟨?_, ?_, ?_, ?_⟩
  · intro s hc
    rcases hsplit3 s hc with ⟨p1, p2, p3, ps, hsp⟩
    rw [mmss_to_ms, hsp]
    rfl
  · intro s hc
    rcases hsplit3 s hc with ⟨p1, p2, p3, ps, hsp⟩
    have hmem : ':' ∈ s := mem_of_colonCount_pos s (by omega)
    rw [parse_entry_time, if_pos hmem, hsp]
  · intro st s hd0 hparse
    rw [add_manual_split_from_entry, if_neg hd0, hparse]
  · intro st s k hd0 hparse hk
    have hne : st.audio_duration_ms ≠ 0 := by omega
    have hms : max 0 (min k st.audio_duration_ms) = 0 := by
      rw [min_eq_left (by omega : k ≤ st.audio_duration_ms)]
      exact max_eq_left (by omega : k ≤ 0)
    rw [add_manual_split_from_entry, if_neg hne, hparse]
    simp only [hms]
    by_cases hm : (0 : Int) ∈ st.split_points
    · simp [hm]
    · simp [hm]

theorem from_display_strictness_amended_witness :
    (2 ≤ colonCount ['1', ':', '2', ':', '3'] ∧
      mmss_to_ms ['1', ':', '2', ':', '3'] = some 0) ∧
    ((0 : Int) < (AppState.mk 10000 [] []).audio_duration_ms ∧
      parse_entry_time ['-', '5'] = some (-5000) ∧ (-5000 : Int) < 0 ∧
      (add_manual_split_from_entry (AppState.mk 10000 [] []) ['-', '5']).2
        = Status.successAddedSplit 0) :=
  ⟨⟨by decide, from_display_strictness_amended.1 ['1', ':', '2', ':', '3'] (by decide)⟩,
    ⟨by decide, by decide, by decide,
      (from_display_strictness_amended.2.2.2 (AppState.mk 10000 [] []) ['-', '5'] (-5000)
        (by decide) (by decide) (by decide)).1⟩⟩

/-- C4 counterexample: with duration 10000 ms, stored manual point 2000 and a panel
showing it, an auto-split pass delivering chunks of lengths 4200 and 4200 leaves the
panel with only the engine rows (00:00-00:04 and 00:04-00:08); the manual boundary
00:02 appears in no row, so the displayed segments do not reflect the union of manual
and automatic points. -/
theorem auto_split_union_cex :
    (auto_split_pass (AppState.mk 10000 [2000] (treeRows 10000 [2000])) [4200, 4200]).1.tree
        = [(1, ['0', '0', ':', '0', '0'], ['0', '0', ':', '0', '4']),
            (2, ['0', '0', ':', '0', '4'], ['0', '0', ':', '0', '8'])] ∧
      ∀ r ∈ (auto_split_pass (AppState.mk 10000 [2000] (treeRows 10000 [2000]))
          [4200, 4200]).1.tree,
        r.2.1 ≠ ['0', '0', ':', '0', '2'] ∧ r.2.2 ≠ ['0', '0', ':', '0', '2'] :=
  ⟨by decide, by decide⟩

/-- C4 amended: an auto-split pass does not remove previously added manual split points
(the stored list is untouched), but no union is formed either: with nonempty chunks the
panel rows afterwards are exactly the engine's chunk rows, and the manual points only
reappear at the next manual update. -/
theorem auto_split_preserves_points_no_union (st : AppState) (lens : List Nat)
    (h : lens ≠ []) :
    (auto_split_pass st lens).1.split_points = st.split_points ∧
      (auto_split_pass st lens).1.audio_duration_ms = st.audio_duration_ms ∧
      (auto_split_pass st lens).1.tree = chunkRows lens := by
  unfold auto_split_pass run_auto_split_task
  rw [if_neg h]
  exact ⟨rfl, rfl, by simp⟩

theorem auto_split_preserves_points_no_union_witness :
    ([1000] : List Nat) ≠ [] ∧
      ((auto_split_pass (AppState.mk 5000 [250] []) [1000]).1.split_points
          = (AppState.mk 5000 [250] []).split_points ∧
        (auto_split_pass (AppState.mk 5000 [250] []) [1000]).1.audio_duration_ms
          = (AppState.mk 5000 [250] []).audio_duration_ms ∧
        (auto_split_pass (AppState.mk 5000 [250] []) [1000]).1.tree = chunkRows [1000]) :=
  ⟨by decide,
    auto_split_preserves_points_no_union (AppState.mk 5000 [250] []) [1000] (by decide)⟩

/-- C10 counterexample: two runs start (each start clears the panel), the newer run's
rows arrive, then the stale first run's delivery still executes and appends its rows —
this interleaving is permitted (nothing carries a run identity) and the final panel is
not the newer run's rows alone, refuting the claim that a stale result can never be
applied after a newer run has started. -/
theorem stale_auto_split_delivery_cex :
    ValidTrace [AutoEvent.start [6000, 4000], AutoEvent.start [10000],
        AutoEvent.deliver 1, AutoEvent.deliver 0] ∧
      (runTrace ([], []) [AutoEvent.start [6000, 4000], AutoEvent.start [10000],
          AutoEvent.deliver 1, AutoEvent.deliver 0]).1
        = chunkRows [10000] ++ chunkRows [6000, 4000] ∧
      chunkRows [6000, 4000] ≠ [] :=
  ⟨by decide, by decide, by decide⟩

/-- C10 amended: starting a new auto-split neither rejects nor supersedes the run in
flight: deliveries carry no run identity, so for any two consecutively started runs
the schedule where the older delivery lands last is permitted and its stale rows are
appended after the newer run's rows. -/
theorem stale_auto_split_delivery_applied (lensA lensB : List Nat)
    (ha : lensA ≠ []) (hb : lensB ≠ []) :
    ValidTrace [AutoEvent.start lensA, AutoEvent.start lensB,
        AutoEvent.deliver 1, AutoEvent.deliver 0] ∧
      (runTrace ([], []) [AutoEvent.start lensA, AutoEvent.start lensB,
          AutoEvent.deliver 1, AutoEvent.deliver 0]).1
        = chunkRows lensB ++ chunkRows lensA := by
  constructor
  · rfl
  · simp [runTrace, List.foldl, stepEvent, List.get?, ha, hb]

theorem stale_auto_split_delivery_applied_witness :
    (([2000] : List Nat) ≠ [] ∧ ([3000] : List Nat) ≠ []) ∧
      (ValidTrace [AutoEvent.start [2000], AutoEvent.start [3000],
          AutoEvent.deliver 1, AutoEvent.deliver 0] ∧
        (runTrace ([], []) [AutoEvent.start [2000], AutoEvent.start [3000],
            AutoEvent.deliver 1, AutoEvent.deliver 0]).1
          = chunkRows [3000] ++ chunkRows [2000]) :=
  ⟨⟨by decide, by decide⟩,
    stale_auto_split_delivery_applied [2000] [3000] (by decide) (by decide)⟩

/-- C1: for a loaded buffer of positive duration and any stored split points, the
derived segment rows are nonempty, start at 0, end at the duration, and each row's end
equals the next row's start — contiguous and exhaustive. -/
theorem update_manual_split_segments_contiguous (d : Int) (sps : List Int) (hd : 0 < d) :
    update_manual_split_segments d sps ≠ [] ∧
    (∀ h0 : 0 < (update_manual_split_segments d sps).length,
        ((update_manual_split_segments d sps).get ⟨0, h0⟩).2.1 = 0) ∧
    ((update_manual_split_segments d sps).getLast?).map (fun r => r.2.2) = some d ∧
    (∀ (i : Nat) (hi : i + 1 < (update_manual_split_segments d sps).length),
        ((update_manual_split_segments d sps).get ⟨i, by omega⟩).2.2
          = ((update_manual_split_segments d sps).get ⟨i + 1, hi⟩).2.1) := by
  have hlen2 : 2 ≤ (derivePoints d sps).length := two_le_length_derivePoints d sps hd
  have hlen : (update_manual_split_segments d sps).length = (derivePoints d sps).length - 1 :=
    segRows_length 1 (derivePoints d sps)
  have hne : update_manual_split_segments d sps ≠ [] := by
    rw [← List.length_pos, hlen]
    omega
  refine ⟨hne, ?_, ?_, ?_⟩
  · intro h0
    have h1 : (derivePoints d sps).get? 0 = some 0 := by
      rw [List.get?_zero]
      exact derivePoints_head? d sps hd
    have hb : 1 < (derivePoints d sps).length := by omega
    have e : some ((update_manual_split_segments d sps).get ⟨0, h0⟩)
        = some ((1 + 0, (0 : Int), (derivePoints d sps).get ⟨1, hb⟩) : Nat × Int × Int) := by
      rw [← List.get?_eq_get h0, update_get?, h1, List.get?_eq_get hb]
      simp
    rw [Option.some_inj.mp e]
  · rw [List.getLast?_eq_get?, hlen, update_get?]
    have hL1 : (derivePoints d sps).length - 1 - 1 + 1 = (derivePoints d sps).length - 1 := by
      omega
    have hlast : (derivePoints d sps).get? ((derivePoints d sps).length - 1) = some d := by
      rw [← List.getLast?_eq_get?]
      exact derivePoints_getLast? d sps hd
    have hxlt : (derivePoints d sps).length - 1 - 1 < (derivePoints d sps).length := by omega
    rw [hL1, hlast, List.get?_eq_get hxlt]
    simp
  · intro i hi
    have hiL : i + 1 < (derivePoints d sps).length - 1 := by
      rw [hlen] at hi
      exact hi
    have h_i : i < (derivePoints d sps).length := by omega
    have h_i1 : i + 1 < (derivePoints d sps).length := by omega
    have h_i2 : i + 1 + 1 < (derivePoints d sps).length := by omega
    have e1 : some ((update_manual_split_segments d sps).get ⟨i, by omega⟩)
        = some ((1 + i, (derivePoints d sps).get ⟨i, h_i⟩,
            (derivePoints d sps).get ⟨i + 1, h_i1⟩) : Nat × Int × Int) := by
      rw [← List.get?_eq_get (show i < (update_manual_split_segments d sps).length by omega),
        update_get?, List.get?_eq_get h_i, List.get?_eq_get h_i1]
      simp
    have e2 : some ((update_manual_split_segments d sps).get ⟨i + 1, hi⟩)
        = some ((1 + (i + 1), (derivePoints d sps).get ⟨i + 1, h_i1⟩,
            (derivePoints d sps).get ⟨i + 1 + 1, h_i2⟩) : Nat × Int × Int) := by
      rw [← List.get?_eq_get hi, update_get?, List.get?_eq_get h_i1, List.get?_eq_get h_i2]
      simp
    rw [Option.some_inj.mp e1, Option.some_inj.mp e2]

theorem update_manual_split_segments_contiguous_witness :
    (0 : Int) < 10000 ∧
      (update_manual_split_segments 10000 [2000, 7000] ≠ [] ∧
        (∀ h0 : 0 < (update_manual_split_segments 10000 [2000, 7000]).length,
            ((update_manual_split_segments 10000 [2000, 7000]).get ⟨0, h0⟩).2.1 = 0) ∧
        ((update_manual_split_segments 10000 [2000, 7000]).getLast?).map (fun r => r.2.2)
          = some 10000 ∧
        (∀ (i : Nat) (hi : i + 1 < (update_manual_split_segments 10000 [2000, 7000]).length),
            ((update_manual_split_segments 10000 [2000, 7000]).get ⟨i, by omega⟩).2.2
              = ((update_manual_split_segments 10000 [2000, 7000]).get ⟨i + 1, hi⟩).2.1)) :=
  ⟨by decide, update_manual_split_segments_contiguous 10000 [2000, 7000] (by decide)⟩

/-- C5: for a nonempty chunk sequence, the reported timestamps start at 0, chunk i
starts at the sum of the lengths of the earlier chunks and ends at its start plus its
own length, and consecutive rows are gapless. -/
theorem chunk_timestamps_gapless (lens : List Nat) (hne : lens ≠ []) :
    (∀ h0 : 0 < (chunkTimestamps lens).length,
        ((chunkTimestamps lens).get ⟨0, h0⟩).2.1 = 0) ∧
    (∀ (i : Nat) (hi : i < lens.length),
        (chunkTimestamps lens).get? i
          = some (i + 1, (lens.take i).sum, (lens.take i).sum + lens.get ⟨i, hi⟩)) ∧
    (∀ (i : Nat) (hi : i + 1 < (chunkTimestamps lens).length),
        ((chunkTimestamps lens).get ⟨i, by omega⟩).2.2
          = ((chunkTimestamps lens).get ⟨i + 1, hi⟩).2.1) := by
  have hlen := chunkTimestamps_length lens
  refine ⟨?_, ?_, ?_⟩
  · intro h0
    have hl : 0 < lens.length := by omega
    have h := chunkTimestamps_get? lens 0 hl
    rw [List.get?_eq_get h0] at h
    rw [Option.some_inj.mp h]
    simp
  · intro i hi
    exact chunkTimestamps_get? lens i hi
  · intro i hi
    have h_i : i < lens.length := by omega
    have h_i1 : i + 1 < lens.length := by omega
    have e1 := chunkTimestamps_get? lens i h_i
    have e2 := chunkTimestamps_get? lens (i + 1) h_i1
    rw [List.get?_eq_get (show i < (chunkTimestamps lens).length by omega)] at e1
    rw [List.get?_eq_get hi] at e2
    rw [Option.some_inj.mp e1, Option.some_inj.mp e2]
    rw [List.sum_take_succ lens i h_i, List.get_eq_getElem]

theorem chunk_timestamps_gapless_witness :
    ([4200, 5800] : List Nat) ≠ [] ∧
      ((∀ h0 : 0 < (chunkTimestamps [4200, 5800]).length,
          ((chunkTimestamps [4200, 5800]).get ⟨0, h0⟩).2.1 = 0) ∧
        (∀ (i : Nat) (hi : i < ([4200, 5800] : List Nat).length),
            (chunkTimestamps [4200, 5800]).get? i
              = some (i + 1, (([4200, 5800] : List Nat).take i).sum,
                  (([4200, 5800] : List Nat).take i).sum
                    + ([4200, 5800] : List Nat).get ⟨i, hi⟩)) ∧
        (∀ (i : Nat) (hi : i + 1 < (chunkTimestamps [4200, 5800]).length),
            ((chunkTimestamps [4200, 5800]).get ⟨i, by omega⟩).2.2
              = ((chunkTimestamps [4200, 5800]).get ⟨i + 1, hi⟩).2.1)) :=
  ⟨by decide, chunk_timestamps_gapless [4200, 5800] (by decide)⟩

end MP3Splitter
